import Mathlib

/-!
Verification of the plasma runtime loader surface.

Part 1 embeds the `Optional` utility of `src/runtime/pz_cxx_future.h`
(a C++11 substitute for `std::optional`) as a Lean structure with value
semantics.  The C++ object holds a `present` flag and raw storage for a
`T`; we model the storage as an `Option T` that records the last value
written by placement new (`none` models the zero-initialised storage of
an object into which no value was ever written).

Part 2 models the bytecode loader declared in `src/runtime/pz_read.h`.
Only the declaration of `pz::read` is in the repository; the loader body
is modelled from the specification (sections 4, 6 and 7 of the design
document).
-/

/-- State of a C++ `Optional<T>` object from `pz_cxx_future.h`: the
`present` flag and the placement-new storage, recorded as the last value
constructed into `data` (or `none` if no value was ever written). -/
structure Optional (T : Type) where
  present : Bool
  data : Option T
deriving DecidableEq

/-- Outcome of a C++ member call that is guarded by `assert`: either a
returned value, a failed assertion, or (never reached through the public
interface) a read of storage that holds no constructed object. -/
inductive ValueResult (T : Type) where
  | ok : T → ValueResult T
  | assertFailed : ValueResult T
  | undefinedRead : ValueResult T
deriving DecidableEq

namespace Optional

/-- The default constructor `Optional() : present(false)`; the `data`
bytes are zero-initialised and hold no constructed `T`. -/
def mkEmpty {T : Type} : Optional T := ⟨false, none⟩

/-- `set(const T &val)`: placement-new of `val` into the storage, then
`present = true`. -/
def set {T : Type} (_o : Optional T) (v : T) : Optional T := ⟨true, some v⟩

/-- The value constructor `Optional(const T &val) { set(val); }`. -/
def ofValue {T : Type} (v : T) : Optional T := set mkEmpty v

/-- `static constexpr Optional Nothing() { return Optional(); }`. -/
def Nothing {T : Type} : Optional T := mkEmpty

/-- `bool hasValue() const { return present; }`. -/
def hasValue {T : Type} (o : Optional T) : Bool := o.present

/-- `value()`: `assert(present); return reinterpret_cast<const T&>(data);`.
If `present` is false the assertion fires; if `present` is true the call
returns the stored object. -/
def value {T : Type} (o : Optional T) : ValueResult T :=
  if o.present then
    match o.data with
    | some v => .ok v
    | none => .undefinedRead
  else .assertFailed

/-- `operator=(const Optional &other)`: copies the source value with
`set(other.value())` only when `other.hasValue()`; otherwise the body
does nothing and the target keeps its state. -/
def assign {T : Type} (target other : Optional T) : Optional T :=
  if other.hasValue then
    match other.value with
    | .ok v => target.set v
    | _ => target
  else target

end Optional

/-- Claim C3: copy-assigning an empty `Optional` source into any target
leaves the target completely unchanged — in particular, if the target
held a value it still holds that same value and `hasValue()` stays
`true`.  The `operator=` body only acts when `other.hasValue()`. -/
theorem optional_assign_from_empty_unchanged {T : Type}
    (target other : Optional T) (h : other.hasValue = false) :
    target.assign other = target ∧
      (target.hasValue = true →
        (target.assign other).hasValue = true ∧
          (target.assign other).value = target.value) := by
  have hassign : target.assign other = target := by
    unfold Optional.assign
    rw [h]
    simp
  exact ⟨hassign, fun hv => ⟨by rw [hassign, hv], by rw [hassign]⟩⟩

/-- Witness for C3 at a concrete input: assigning `Nothing` into an
`Optional Nat` holding `7` keeps the `7`. -/
theorem optional_assign_from_empty_unchanged_witness :
    (Optional.ofValue 7).assign Optional.Nothing = Optional.ofValue 7 ∧
      ((Optional.ofValue 7).hasValue = true →
        ((Optional.ofValue 7).assign Optional.Nothing).hasValue = true ∧
          ((Optional.ofValue 7).assign Optional.Nothing).value
            = (Optional.ofValue 7).value) :=
  optional_assign_from_empty_unchanged (Optional.ofValue 7) Optional.Nothing
    (by decide)

/-- Claim C4: `value()` is guarded by `assert(present)`: when
`hasValue()` is true the assertion holds and `value()` returns the
stored value; when `hasValue()` is false the assertion fails, so
`value()` has no defined result. -/
theorem optional_value_assert_guard {T : Type} (o : Optional T) (v : T) :
    (o.hasValue = true → o.data = some v → o.value = .ok v) ∧
      (o.hasValue = false → o.value = .assertFailed) := by
  constructor
  · intro hp hd
    unfold Optional.value
    rw [show o.present = true from hp, hd]
    simp
  · intro hp
    unfold Optional.value
    rw [show o.present = false from hp]
    simp

/-- Witness for C4 at concrete inputs: `value()` on `Optional(5)` yields
`5`, and on an empty `Optional Nat` the assertion fails. -/
theorem optional_value_assert_guard_witness :
    (Optional.ofValue 5).value = ValueResult.ok 5 ∧
      (Optional.mkEmpty : Optional Nat).value = ValueResult.assertFailed :=
  ⟨(optional_value_assert_guard (Optional.ofValue 5) 5).1 (by decide) rfl,
   (optional_value_assert_guard (Optional.mkEmpty : Optional Nat) 0).2
     (by decide)⟩

/-- Claim C5: a default-constructed `Optional` and `Optional::Nothing()`
have `hasValue() = false`; `Optional(v)`, and any `Optional` after
`set(v)`, have `hasValue() = true` and `value() = v`. -/
theorem optional_constructors_spec {T : Type} (v : T) (o : Optional T) :
    (Optional.mkEmpty : Optional T).hasValue = false ∧
      (Optional.Nothing : Optional T).hasValue = false ∧
      (Optional.ofValue v).hasValue = true ∧
      (Optional.ofValue v).value = .ok v ∧
      (o.set v).hasValue = true ∧
      (o.set v).value = .ok v := by
  refine ⟨rfl, rfl, rfl, rfl, rfl, rfl⟩

/-!
Part 2: the bytecode loader.  The repository contains only the
declaration `Module * read(PZ &pz, const std::string &filename, bool
verbose)` in `src/runtime/pz_read.h`; the loader body is not in the
sources.  Everything in this section is therefore modelled from the
specification: the binary layout of section 6, the stage designs of
sections 4.1-4.7 and the error kinds of section 7.  Buffers are byte
lists; multi-byte fields are little-endian as recommended by the spec.
-/

namespace pz

/-- Modelled from the spec: the error kinds of section 7 for the missing
loader body (`pz_read.cpp` is not in the sources). -/
inductive ErrorKind where
  | IoError
  | BadMagic
  | UnsupportedVersion
  | MalformedHeader
  | TruncatedInput
  | UnknownConstantTag
  | InvalidUtf8
  | DuplicateSymbol
  | InvalidArity
  | EmptyProcedureBody
  | UnresolvedSymbol
  | SymbolKindMismatch
  | IndexOutOfRange
deriving DecidableEq

/-- Modelled from the spec: a constant-pool entry (section 6 tags
0=int64, 1=float64, 2=string).  Float payloads are kept as their raw
eight bytes since the loader never interprets them. -/
inductive Constant where
  | int64 : Nat → Constant
  | float64 : List Nat → Constant
  | str : List Nat → Constant
deriving DecidableEq

/-- Modelled from the spec: a symbol-table entry of section 6 (namespace
tag, UTF-8 name bytes, kind tag, raw target index). -/
structure Symbol where
  nspace : Nat
  name : List Nat
  kind : Nat
  target : Nat
deriving DecidableEq

/-- Modelled from the spec: a code-section entry of section 6 (arity,
local-slot count, opaque instruction bytes). -/
structure Procedure where
  arity : Nat
  localSlots : Nat
  code : List Nat
deriving DecidableEq

/-- Modelled from the spec: the assembled module of section 3 — format
version plus the three decoded sections. -/
structure Module where
  version : Nat
  constants : List Constant
  symbols : List Symbol
  procs : List Procedure
deriving DecidableEq

/-- Modelled from the spec: the parsed header counts of section 6. -/
structure Header where
  version : Nat
  procCount : Nat
  constCount : Nat
  symCount : Nat
deriving DecidableEq

/-- Little-endian value of a byte list. -/
def leVal : List Nat → Nat
  | [] => 0
  | b :: r => b + 256 * leVal r

/-- Little-endian encoding of `v` in `k` bytes. -/
def leBytes : Nat → Nat → List Nat
  | 0, _ => []
  | k + 1, v => v % 256 :: leBytes k (v / 256)

/-- Modelled from the spec: the byte cursor of section 4.1 as a reader
over the not-yet-consumed suffix of the buffer. -/
def Rd (α : Type) : Type := List Nat → Except ErrorKind (α × List Nat)

/-- Reader that consumes nothing and returns `a`. -/
def ppure {α : Type} (a : α) : Rd α := fun l => .ok (a, l)

/-- Sequential composition of readers. -/
def pbind {α β : Type} (p : Rd α) (f : α → Rd β) : Rd β := fun l =>
  match p l with
  | .ok (a, l1) => f a l1
  | .error e => .error e

/-- Reader that fails with `e` when the (byte-independent) condition is
false, consuming nothing. -/
def pguard (c : Prop) [Decidable c] (e : ErrorKind) : Rd Unit := fun l =>
  if c then .ok ((), l) else .error e

/-- Reader that fails outright with `e`. -/
def pfail {α : Type} (e : ErrorKind) : Rd α := fun _ => .error e

/-- Lift a pure validation result into a reader (consumes nothing). -/
def pcheck (x : Except ErrorKind Unit) : Rd Unit := fun l =>
  match x with
  | .ok _ => .ok ((), l)
  | .error e => .error e

/-- Modelled from the spec: `read_u8` of section 4.1 — one byte or
`TruncatedInput`. -/
def readU8 : Rd Nat := fun l =>
  match l with
  | [] => .error .TruncatedInput
  | b :: r => .ok (b, r)

/-- Modelled from the spec: `read_length_prefixed_bytes` body — `n` raw
bytes or `TruncatedInput`; never advances past the buffer end. -/
def readN (n : Nat) : Rd (List Nat) := fun l =>
  if n ≤ l.length then .ok (l.take n, l.drop n) else .error .TruncatedInput

/-- Modelled from the spec: `read_u16` of section 4.1 (little-endian). -/
def readU16 : Rd Nat := pbind (readN 2) fun bs => ppure (leVal bs)

/-- Modelled from the spec: `read_u32` of section 4.1 (little-endian). -/
def readU32 : Rd Nat := pbind (readN 4) fun bs => ppure (leVal bs)

/-- Modelled from the spec: the expected magic constant (the spec fixes
none, so the model uses the bytes of "PZ01" little-endian). -/
def pzMagic : Nat := 825252432

/-- Modelled from the spec: lowest supported format version. -/
def minVersion : Nat := 1

/-- Modelled from the spec: highest supported format version. -/
def maxVersion : Nat := 3

/-- Modelled from the spec: the header validator of section 4.2 — magic,
version and the three counts; `BadMagic` on a magic mismatch before any
other field is read, `UnsupportedVersion` when the version is outside
the supported range. -/
def readHeader : Rd Header :=
  pbind readU32 fun magic =>
  pbind (pguard (magic = pzMagic) .BadMagic) fun _ =>
  pbind readU16 fun version =>
  pbind (pguard (minVersion ≤ version ∧ version ≤ maxVersion)
    .UnsupportedVersion) fun _ =>
  pbind readU32 fun pc =>
  pbind readU32 fun cc =>
  pbind readU32 fun sc =>
  ppure ⟨version, pc, cc, sc⟩

/-- Modelled from the spec: the sanity ceiling of section 4.2 — counts
larger than the remaining buffer length are absurd and rejected with
`MalformedHeader` (every entry occupies at least one byte). -/
def checkCounts (h : Header) : Rd Unit := fun l =>
  if h.procCount + h.constCount + h.symCount ≤ l.length then .ok ((), l)
  else .error .MalformedHeader

/-- Continuation byte of a UTF-8 sequence (10xxxxxx). -/
def contByte (b : Nat) : Bool := decide (128 ≤ b) && decide (b ≤ 191)

/-- Modelled from the spec: the UTF-8 validity check of section 4.4
(standard shortest-form UTF-8, surrogates excluded). -/
def validUtf8 : List Nat → Bool
  | [] => true
  | b :: rest =>
    if b ≤ 127 then validUtf8 rest
    else if 194 ≤ b ∧ b ≤ 223 then
      match rest with
      | c1 :: r => contByte c1 && validUtf8 r
      | [] => false
    else if b = 224 then
      match rest with
      | c1 :: c2 :: r =>
        (decide (160 ≤ c1) && decide (c1 ≤ 191)) && contByte c2 && validUtf8 r
      | _ => false
    else if (225 ≤ b ∧ b ≤ 236) ∨ b = 238 ∨ b = 239 then
      match rest with
      | c1 :: c2 :: r => contByte c1 && contByte c2 && validUtf8 r
      | _ => false
    else if b = 237 then
      match rest with
      | c1 :: c2 :: r =>
        (decide (128 ≤ c1) && decide (c1 ≤ 159)) && contByte c2 && validUtf8 r
      | _ => false
    else if b = 240 then
      match rest with
      | c1 :: c2 :: c3 :: r =>
        (decide (144 ≤ c1) && decide (c1 ≤ 191)) && contByte c2 && contByte c3
          && validUtf8 r
      | _ => false
    else if 241 ≤ b ∧ b ≤ 243 then
      match rest with
      | c1 :: c2 :: c3 :: r =>
        contByte c1 && contByte c2 && contByte c3 && validUtf8 r
      | _ => false
    else if b = 244 then
      match rest with
      | c1 :: c2 :: c3 :: r =>
        (decide (128 ≤ c1) && decide (c1 ≤ 143)) && contByte c2 && contByte c3
          && validUtf8 r
      | _ => false
    else false

/-- Modelled from the spec: one constant-pool entry of section 4.3 — a
tag byte then the tag-dependent payload; `UnknownConstantTag` for an
unrecognized tag. -/
def readConstant : Rd Constant :=
  pbind readU8 fun tag =>
  if tag = 0 then pbind (readN 8) fun bs => ppure (.int64 (leVal bs))
  else if tag = 1 then pbind (readN 8) fun bs => ppure (.float64 bs)
  else if tag = 2 then
    pbind readU32 fun len => pbind (readN len) fun bs => ppure (.str bs)
  else pfail .UnknownConstantTag

/-- Modelled from the spec: the constant pool loader of section 4.3 —
`count` consecutive entries. -/
def readConstants : Nat → Rd (List Constant)
  | 0 => ppure []
  | n + 1 =>
    pbind readConstant fun c =>
    pbind (readConstants n) fun cs =>
    ppure (c :: cs)

/-- The (namespace, name) key under which a symbol must be unique. -/
def symKey (s : Symbol) : Nat × List Nat := (s.nspace, s.name)

/-- Modelled from the spec: one symbol-table entry of section 4.4 —
namespace tag, length-prefixed UTF-8 name (`InvalidUtf8` when
malformed), kind tag, raw target index. -/
def readSymbolEntry : Rd Symbol :=
  pbind readU8 fun ns =>
  pbind readU32 fun len =>
  pbind (readN len) fun name =>
  pbind (pguard (validUtf8 name = true) .InvalidUtf8) fun _ =>
  pbind readU8 fun kind =>
  pbind readU32 fun tgt =>
  ppure ⟨ns, name, kind, tgt⟩

/-- Modelled from the spec: the symbol table loader of section 4.4 —
`count` entries, failing with `DuplicateSymbol` when a (namespace, name)
pair was already seen. -/
def readSymbols : Nat → List (Nat × List Nat) → Rd (List Symbol)
  | 0, _ => ppure []
  | n + 1, seen =>
    pbind readSymbolEntry fun s =>
    pbind (pguard (¬ symKey s ∈ seen) .DuplicateSymbol) fun _ =>
    pbind (readSymbols n (symKey s :: seen)) fun ss =>
    ppure (s :: ss)

/-- Modelled from the spec: one code-section entry of section 4.5 —
arity, local slots (`InvalidArity` when arity exceeds the slots), then
the length-prefixed instruction bytes (`EmptyProcedureBody` when the
length is zero). -/
def readProcEntry : Rd Procedure :=
  pbind readU16 fun arity =>
  pbind readU16 fun slots =>
  pbind (pguard (arity ≤ slots) .InvalidArity) fun _ =>
  pbind readU32 fun len =>
  pbind (pguard (0 < len) .EmptyProcedureBody) fun _ =>
  pbind (readN len) fun code =>
  ppure ⟨arity, slots, code⟩

/-- Modelled from the spec: the code section loader of section 4.5 —
`count` consecutive entries. -/
def readProcs : Nat → Rd (List Procedure)
  | 0 => ppure []
  | n + 1 =>
    pbind readProcEntry fun p =>
    pbind (readProcs n) fun ps =>
    ppure (p :: ps)

/-- Modelled from the spec: the reference resolver of section 4.6 for
one symbol — the kind must match the namespace's expectation
(`SymbolKindMismatch`) and the target index must be in bounds of its
collection (`IndexOutOfRange`). -/
def resolveSymbol (ccount pcount : Nat) (s : Symbol) :
    Except ErrorKind Unit :=
  if s.nspace = 0 then
    if s.kind = 0 then
      if s.target < pcount then .ok () else .error .IndexOutOfRange
    else .error .SymbolKindMismatch
  else if s.nspace = 1 then
    if s.kind = 1 then
      if s.target < ccount then .ok () else .error .IndexOutOfRange
    else .error .SymbolKindMismatch
  else .error .SymbolKindMismatch

/-- Modelled from the spec: the resolver pass over the whole symbol
table. -/
def resolveSymbols (ccount pcount : Nat) : List Symbol →
    Except ErrorKind Unit
  | [] => .ok ()
  | s :: rest =>
    match resolveSymbol ccount pcount s with
    | .ok _ => resolveSymbols ccount pcount rest
    | .error e => .error e

/-- Modelled from the spec: the section pipeline of sections 4.3-4.7 —
constants, symbols, code, then resolution and assembly. -/
def loadBody (h : Header) : Rd Module :=
  pbind (readConstants h.constCount) fun consts =>
  pbind (readSymbols h.symCount []) fun syms =>
  pbind (readProcs h.procCount) fun procs =>
  pbind (pcheck (resolveSymbols consts.length procs.length syms)) fun _ =>
  ppure ⟨h.version, consts, syms, procs⟩

/-- Modelled from the spec: the whole load pass over a buffer, returning
the module together with the unconsumed suffix. -/
def loadRest : Rd Module :=
  pbind readHeader fun h =>
  pbind (checkCounts h) fun _ =>
  loadBody h

/-- Modelled from the spec: loading a buffer — either a complete Module
or the error of the failing stage. -/
def loadModule (l : List Nat) : Except ErrorKind Module :=
  match loadRest l with
  | .ok (m, _) => .ok m
  | .error e => .error e

/-- Modelled from the spec: the entry point `pz::read` of
`src/runtime/pz_read.h` whose body is missing from the sources — the
file content stands in for the path (`none` models an unreadable file,
surfacing `IoError`); the verbosity flag only drives logging, which is
out of core scope. -/
def read (file : Option (List Nat)) (_verbose : Bool) :
    Except ErrorKind Module :=
  match file with
  | none => .error .IoError
  | some buf => loadModule buf

end pz

namespace pz

/-- Modelled from the spec: the binary encoding of a constant-pool entry
(section 6), used to state the re-encode/re-load round-trip law. -/
def encodeConstant : Constant → List Nat
  | .int64 v => 0 :: leBytes 8 v
  | .float64 bs => 1 :: bs
  | .str bs => 2 :: (leBytes 4 bs.length ++ bs)

/-- Modelled from the spec: encoding of the whole constant pool. -/
def encodeConstants : List Constant → List Nat
  | [] => []
  | c :: cs => encodeConstant c ++ encodeConstants cs

/-- Modelled from the spec: the binary encoding of a symbol-table entry
(section 6). -/
def encodeSymbol (s : Symbol) : List Nat :=
  s.nspace :: (leBytes 4 s.name.length ++ (s.name ++
    (s.kind :: leBytes 4 s.target)))

/-- Modelled from the spec: encoding of the whole symbol table. -/
def encodeSymbols : List Symbol → List Nat
  | [] => []
  | s :: ss => encodeSymbol s ++ encodeSymbols ss

/-- Modelled from the spec: the binary encoding of a code-section entry
(section 6). -/
def encodeProc (p : Procedure) : List Nat :=
  leBytes 2 p.arity ++ (leBytes 2 p.localSlots ++
    (leBytes 4 p.code.length ++ p.code))

/-- Modelled from the spec: encoding of the whole code section. -/
def encodeProcs : List Procedure → List Nat
  | [] => []
  | p :: ps => encodeProc p ++ encodeProcs ps

/-- Modelled from the spec: the header encoding of section 6. -/
def encodeHeader (version pc cc sc : Nat) : List Nat :=
  leBytes 4 pzMagic ++ (leBytes 2 version ++
    (leBytes 4 pc ++ (leBytes 4 cc ++ leBytes 4 sc)))

/-- Modelled from the spec: re-encoding an assembled module into the
binary format of section 6. -/
def encodeModule (m : Module) : List Nat :=
  encodeHeader m.version m.procs.length m.constants.length m.symbols.length
    ++ (encodeConstants m.constants ++ (encodeSymbols m.symbols ++
      encodeProcs m.procs))

/-- Width bounds a constant must satisfy for its section-6 encoding to
carry it exactly. -/
def constWf (c : Constant) : Prop :=
  match c with
  | .int64 v => v < 18446744073709551616
  | .float64 bs => bs.length = 8
  | .str bs => bs.length < 4294967296

instance (c : Constant) : Decidable (constWf c) := by
  cases c <;> { unfold constWf; infer_instance }

instance {ε α : Type} [DecidableEq ε] [DecidableEq α] :
    DecidableEq (Except ε α) := fun x y =>
  match x, y with
  | .ok a, .ok b =>
    match decEq a b with
    | isTrue h => isTrue (by rw [h])
    | isFalse h => isFalse (fun hc => by cases hc; exact h rfl)
  | .ok _, .error _ => isFalse (fun hc => by cases hc)
  | .error _, .ok _ => isFalse (fun hc => by cases hc)
  | .error e, .error f =>
    match decEq e f with
    | isTrue h => isTrue (by rw [h])
    | isFalse h => isFalse (fun hc => by cases hc; exact h rfl)

/-- Internal consistency of an assembled module: the whole-module
invariants of sections 3 and 4.7 that every successfully loaded module
must satisfy — version in the supported range, no two symbols sharing a
(namespace, name) key, every symbol name valid UTF-8 with a resolvable
in-bounds target, and every procedure with arity within its local slots
and a non-empty body. -/
def moduleComplete (m : Module) : Prop :=
  minVersion ≤ m.version ∧ m.version ≤ maxVersion ∧
  (m.symbols.map symKey).Nodup ∧
  (∀ s ∈ m.symbols, validUtf8 s.name = true ∧
    resolveSymbol m.constants.length m.procs.length s = .ok ()) ∧
  (∀ p ∈ m.procs, p.arity ≤ p.localSlots ∧ p.code ≠ [])

instance (m : Module) : Decidable (moduleComplete m) := by
  unfold moduleComplete; infer_instance

/-- A fully well-formed module: internally consistent and with every
numeric field within the fixed width its section-6 encoding gives it. -/
def moduleWf (m : Module) : Prop :=
  moduleComplete m ∧
  m.version < 65536 ∧
  m.procs.length < 4294967296 ∧
  m.constants.length < 4294967296 ∧
  m.symbols.length < 4294967296 ∧
  (∀ c ∈ m.constants, constWf c) ∧
  (∀ s ∈ m.symbols, s.nspace < 256 ∧ s.name.length < 4294967296 ∧
    s.kind < 256 ∧ s.target < 4294967296) ∧
  (∀ p ∈ m.procs, p.arity < 65536 ∧ p.localSlots < 65536 ∧
    p.code.length < 4294967296)

instance (m : Module) : Decidable (moduleWf m) := by
  unfold moduleWf; infer_instance

/-- The minimal module of the spec's section 8 scenario: no constants,
one procedure of arity 0 with one local slot and a one-byte body, and
one symbol exporting it under the name "main". -/
def mainModule : Module :=
  ⟨1, [], [⟨0, [109, 97, 105, 110], 0, 0⟩], [⟨0, 1, [0]⟩]⟩

/-- The section-6 encoding of `mainModule`. -/
def mainBytes : List Nat := encodeModule mainModule

end pz

namespace pz

theorem ppure_eq {α : Type} (a : α) (l : List Nat) :
    ppure a l = .ok (a, l) := rfl

theorem pbind_ok {α β : Type} {p : Rd α} {f : α → Rd β} {l l1 : List Nat}
    {a : α} (h : p l = .ok (a, l1)) : pbind p f l = f a l1 := by
  unfold pbind
  rw [h]

theorem pbind_err {α β : Type} {p : Rd α} {f : α → Rd β} {l : List Nat}
    {e : ErrorKind} (h : p l = .error e) : pbind p f l = .error e := by
  unfold pbind
  rw [h]

theorem pguard_pos {c : Prop} [Decidable c] {e : ErrorKind}
    (h : c) (l : List Nat) : pguard c e l = .ok ((), l) := by
  unfold pguard
  rw [if_pos h]

theorem pguard_neg {c : Prop} [Decidable c] {e : ErrorKind}
    (h : ¬ c) (l : List Nat) : pguard c e l = .error e := by
  unfold pguard
  rw [if_neg h]

theorem pcheck_ok {x : Except ErrorKind Unit} (h : x = .ok ())
    (l : List Nat) : pcheck x l = .ok ((), l) := by
  unfold pcheck
  rw [h]

theorem pcheck_err {x : Except ErrorKind Unit} {e : ErrorKind}
    (h : x = .error e) (l : List Nat) : pcheck x l = .error e := by
  unfold pcheck
  rw [h]

theorem readU8_cons (b : Nat) (r : List Nat) : readU8 (b :: r) = .ok (b, r) :=
  rfl

theorem readU8_nil : readU8 [] = .error .TruncatedInput := rfl

theorem readN_append (n : Nat) (c r : List Nat) (h : c.length = n) :
    readN n (c ++ r) = .ok (c, r) := by
  subst h
  unfold readN
  rw [if_pos (by simp)]
  rw [List.take_left, List.drop_left]

theorem readN_short (n : Nat) (l : List Nat) (h : l.length < n) :
    readN n l = .error .TruncatedInput := by
  unfold readN
  rw [if_neg (by omega)]

theorem leBytes_length (k v : Nat) : (leBytes k v).length = k := by
  induction k generalizing v with
  | zero => rfl
  | succ k ih =>
    unfold leBytes
    simp [ih]

theorem leVal_leBytes (k v : Nat) (h : v < 256 ^ k) :
    leVal (leBytes k v) = v := by
  induction k generalizing v with
  | zero =>
    have : v = 0 := by
      have h1 : (256 : Nat) ^ 0 = 1 := by norm_num
      omega
    subst this
    rfl
  | succ k ih =>
    have hdiv : v / 256 < 256 ^ k := by
      rw [Nat.div_lt_iff_lt_mul (by norm_num : (0 : Nat) < 256)]
      calc v < 256 ^ (k + 1) := h
        _ = 256 ^ k * 256 := by rw [pow_succ]
    unfold leBytes leVal
    rw [ih (v / 256) hdiv]
    omega

theorem readU16_append (v : Nat) (h : v < 65536) (r : List Nat) :
    readU16 (leBytes 2 v ++ r) = .ok (v, r) := by
  unfold readU16
  rw [pbind_ok (readN_append 2 (leBytes 2 v) r (leBytes_length 2 v))]
  rw [ppure_eq, leVal_leBytes 2 v (by norm_num; omega)]

theorem readU32_append (v : Nat) (h : v < 4294967296) (r : List Nat) :
    readU32 (leBytes 4 v ++ r) = .ok (v, r) := by
  unfold readU32
  rw [pbind_ok (readN_append 4 (leBytes 4 v) r (leBytes_length 4 v))]
  rw [ppure_eq, leVal_leBytes 4 v (by norm_num; omega)]

theorem readU32_raw (c r : List Nat) (h : c.length = 4) :
    readU32 (c ++ r) = .ok (leVal c, r) := by
  unfold readU32
  rw [pbind_ok (readN_append 4 c r h)]
  rw [ppure_eq]

end pz

namespace pz

theorem readConstant_encode (c : Constant) (h : constWf c) (r : List Nat) :
    readConstant (encodeConstant c ++ r) = .ok (c, r) := by
  cases c with
  | int64 v =>
    have hv : leVal (leBytes 8 v) = v :=
      leVal_leBytes 8 v (by norm_num; exact h)
    simp [readConstant, encodeConstant, pbind, readU8, ppure,
      readN_append 8 (leBytes 8 v) r (leBytes_length 8 v), hv]
  | float64 bs =>
    have hlen : bs.length = 8 := h
    simp [readConstant, encodeConstant, pbind, readU8, ppure,
      readN_append 8 bs r hlen]
  | str bs =>
    have hlen : bs.length < 4294967296 := h
    simp only [encodeConstant, List.cons_append, List.append_assoc]
    simp [readConstant, pbind, readU8, ppure,
      readU32_append bs.length hlen (bs ++ r),
      readN_append bs.length bs r rfl]

theorem readSymbolEntry_encode (s : Symbol) (hutf : validUtf8 s.name = true)
    (hlen : s.name.length < 4294967296) (htgt : s.target < 4294967296)
    (r : List Nat) :
    readSymbolEntry (encodeSymbol s ++ r) = .ok (s, r) := by
  simp only [encodeSymbol, List.cons_append, List.append_assoc]
  simp only [readSymbolEntry, pbind_ok (readU8_cons s.nspace _)]
  simp only [pbind_ok (readU32_append s.name.length hlen _)]
  simp only [pbind_ok (readN_append s.name.length s.name _ rfl)]
  simp only [pbind_ok (pguard_pos hutf _)]
  simp only [pbind_ok (readU8_cons s.kind _)]
  simp only [pbind_ok (readU32_append s.target htgt _)]
  simp only [ppure_eq]

theorem readProcEntry_encode (p : Procedure) (har : p.arity ≤ p.localSlots)
    (ha16 : p.arity < 65536) (hs16 : p.localSlots < 65536)
    (hcode : p.code ≠ []) (hclen : p.code.length < 4294967296)
    (r : List Nat) :
    readProcEntry (encodeProc p ++ r) = .ok (p, r) := by
  have hpos : 0 < p.code.length := List.length_pos.mpr hcode
  simp only [encodeProc, List.append_assoc]
  simp only [readProcEntry, pbind_ok (readU16_append p.arity ha16 _)]
  simp only [pbind_ok (readU16_append p.localSlots hs16 _)]
  simp only [pbind_ok (pguard_pos har _)]
  simp only [pbind_ok (readU32_append p.code.length hclen _)]
  simp only [pbind_ok (pguard_pos hpos _)]
  simp only [pbind_ok (readN_append p.code.length p.code _ rfl)]
  simp only [ppure_eq]

theorem readHeader_encode (version pc cc sc : Nat)
    (hv1 : minVersion ≤ version) (hv2 : version ≤ maxVersion)
    (hpc : pc < 4294967296) (hcc : cc < 4294967296) (hsc : sc < 4294967296)
    (r : List Nat) :
    readHeader (encodeHeader version pc cc sc ++ r) =
      .ok (⟨version, pc, cc, sc⟩, r) := by
  have hv16 : version < 65536 := by
    unfold maxVersion at hv2
    omega
  have hmg : pzMagic < 4294967296 := by norm_num [pzMagic]
  simp only [encodeHeader, List.append_assoc]
  simp only [readHeader, pbind_ok (readU32_append pzMagic hmg _)]
  simp only [pbind_ok (pguard_pos rfl _)]
  simp only [pbind_ok (readU16_append version hv16 _)]
  simp only [pbind_ok (pguard_pos
    (show minVersion ≤ version ∧ version ≤ maxVersion from ⟨hv1, hv2⟩) _)]
  simp only [pbind_ok (readU32_append pc hpc _)]
  simp only [pbind_ok (readU32_append cc hcc _)]
  simp only [pbind_ok (readU32_append sc hsc _)]
  simp only [ppure_eq]

end pz

namespace pz

theorem readConstants_encode (cs : List Constant) :
    ∀ (r : List Nat), (∀ c ∈ cs, constWf c) →
      readConstants cs.length (encodeConstants cs ++ r) = .ok (cs, r) := by
  induction cs with
  | nil =>
    intro r _
    simp [readConstants, encodeConstants, ppure]
  | cons c cs ih =>
    intro r h
    simp only [encodeConstants, List.append_assoc, List.length_cons]
    simp only [readConstants,
      pbind_ok (readConstant_encode c (h c (by simp)) _)]
    simp only [pbind_ok (ih _ (fun x hx => h x (by simp [hx])))]
    simp only [ppure_eq]

theorem readSymbols_encode (ss : List Symbol) :
    ∀ (seen : List (Nat × List Nat)) (r : List Nat),
      (∀ s ∈ ss, validUtf8 s.name = true ∧ s.name.length < 4294967296 ∧
        s.target < 4294967296) →
      (ss.map symKey).Nodup →
      (∀ s ∈ ss, ¬ symKey s ∈ seen) →
      readSymbols ss.length seen (encodeSymbols ss ++ r) = .ok (ss, r) := by
  induction ss with
  | nil =>
    intro seen r _ _ _
    simp [readSymbols, encodeSymbols, ppure]
  | cons s ss ih =>
    intro seen r hwf hnd hdisj
    obtain ⟨hutf, hlen, htgt⟩ := hwf s (by simp)
    have hnd2 : (symKey s :: ss.map symKey).Nodup := by simpa using hnd
    have hkey : ¬ symKey s ∈ ss.map symKey := (List.nodup_cons.mp hnd2).1
    have hnd' : (ss.map symKey).Nodup := (List.nodup_cons.mp hnd2).2
    have hdisj' : ∀ x ∈ ss, ¬ symKey x ∈ (symKey s :: seen) := by
      intro x hx
      simp only [List.mem_cons]
      push_neg
      constructor
      · intro heq
        exact hkey (heq ▸ List.mem_map_of_mem symKey hx)
      · exact hdisj x (by simp [hx])
    simp only [encodeSymbols, List.append_assoc, List.length_cons]
    simp only [readSymbols,
      pbind_ok (readSymbolEntry_encode s hutf hlen htgt _)]
    simp only [pbind_ok (pguard_pos (hdisj s (by simp)) _)]
    simp only [pbind_ok (ih (symKey s :: seen) _
      (fun x hx => hwf x (by simp [hx])) hnd' hdisj')]
    simp only [ppure_eq]

theorem readProcs_encode (ps : List Procedure) :
    ∀ (r : List Nat),
      (∀ p ∈ ps, p.arity ≤ p.localSlots ∧ p.code ≠ []) →
      (∀ p ∈ ps, p.arity < 65536 ∧ p.localSlots < 65536 ∧
        p.code.length < 4294967296) →
      readProcs ps.length (encodeProcs ps ++ r) = .ok (ps, r) := by
  induction ps with
  | nil =>
    intro r _ _
    simp [readProcs, encodeProcs, ppure]
  | cons p ps ih =>
    intro r h1 h2
    obtain ⟨har, hcode⟩ := h1 p (by simp)
    obtain ⟨ha16, hs16, hclen⟩ := h2 p (by simp)
    simp only [encodeProcs, List.append_assoc, List.length_cons]
    simp only [readProcs,
      pbind_ok (readProcEntry_encode p har ha16 hs16 hcode hclen _)]
    simp only [pbind_ok (ih _ (fun x hx => h1 x (by simp [hx]))
      (fun x hx => h2 x (by simp [hx])))]
    simp only [ppure_eq]

theorem resolveSymbols_all_ok (ccount pcount : Nat) (ss : List Symbol)
    (h : ∀ s ∈ ss, resolveSymbol ccount pcount s = .ok ()) :
    resolveSymbols ccount pcount ss = .ok () := by
  induction ss with
  | nil => rfl
  | cons s ss ih =>
    unfold resolveSymbols
    rw [h s (by simp)]
    exact ih (fun x hx => h x (by simp [hx]))

theorem resolveSymbols_mem_ok (ccount pcount : Nat) (ss : List Symbol)
    (h : resolveSymbols ccount pcount ss = .ok ()) :
    ∀ s ∈ ss, resolveSymbol ccount pcount s = .ok () := by
  induction ss with
  | nil => intro s hs; cases hs
  | cons s ss ih =>
    intro x hx
    unfold resolveSymbols at h
    cases hres : resolveSymbol ccount pcount s with
    | error e => rw [hres] at h; cases h
    | ok u =>
      rw [hres] at h
      cases hx with
      | head => cases u; exact hres
      | tail _ hmem => exact ih h x hmem

end pz

namespace pz

theorem encodeConstants_length_ge (cs : List Constant) :
    cs.length ≤ (encodeConstants cs).length := by
  induction cs with
  | nil => simp [encodeConstants]
  | cons c cs ih =>
    have h1 : 1 ≤ (encodeConstant c).length := by
      cases c <;> simp [encodeConstant]
    simp only [encodeConstants, List.length_append, List.length_cons]
    omega

theorem encodeSymbols_length_ge (ss : List Symbol) :
    ss.length ≤ (encodeSymbols ss).length := by
  induction ss with
  | nil => simp [encodeSymbols]
  | cons s ss ih =>
    have h1 : 1 ≤ (encodeSymbol s).length := by simp [encodeSymbol]
    simp only [encodeSymbols, List.length_append, List.length_cons]
    omega

theorem encodeProcs_length_ge (ps : List Procedure) :
    ps.length ≤ (encodeProcs ps).length := by
  induction ps with
  | nil => simp [encodeProcs]
  | cons p ps ih =>
    have h1 : 1 ≤ (encodeProc p).length := by
      simp [encodeProc, leBytes_length]
      omega
    simp only [encodeProcs, List.length_append, List.length_cons]
    omega

theorem checkCounts_pos (h : Header) (l : List Nat)
    (hle : h.procCount + h.constCount + h.symCount ≤ l.length) :
    checkCounts h l = .ok ((), l) := by
  unfold checkCounts
  rw [if_pos hle]

theorem readProcs_encode_exact (ps : List Procedure)
    (h1 : ∀ p ∈ ps, p.arity ≤ p.localSlots ∧ p.code ≠ [])
    (h2 : ∀ p ∈ ps, p.arity < 65536 ∧ p.localSlots < 65536 ∧
      p.code.length < 4294967296) :
    readProcs ps.length (encodeProcs ps) = .ok (ps, []) := by
  have h := readProcs_encode ps [] h1 h2
  rwa [List.append_nil] at h

theorem loadModule_ok_of {l : List Nat} {m : Module} {r : List Nat}
    (h : loadRest l = .ok (m, r)) : loadModule l = .ok m := by
  unfold loadModule
  rw [h]

theorem loadModule_err_of {l : List Nat} {e : ErrorKind}
    (h : loadRest l = .error e) : loadModule l = .error e := by
  unfold loadModule
  rw [h]

theorem loadRest_err_of_header {l : List Nat} {e : ErrorKind}
    (h : readHeader l = .error e) : loadRest l = .error e := by
  unfold loadRest
  exact pbind_err h

theorem loadRest_encode (m : Module) (h : moduleWf m) :
    loadRest (encodeModule m) = .ok (m, []) := by
  obtain ⟨hcomp, hv16, hpc, hcc, hsc, hconsts, hsyms, hprocs⟩ := h
  obtain ⟨hminv, hmaxv, hnd, hsymres, hproc2⟩ := hcomp
  have hlen : m.procs.length + m.constants.length + m.symbols.length ≤
      (encodeConstants m.constants ++ (encodeSymbols m.symbols ++
        encodeProcs m.procs)).length := by
    have h1 := encodeConstants_length_ge m.constants
    have h2 := encodeSymbols_length_ge m.symbols
    have h3 := encodeProcs_length_ge m.procs
    simp only [List.length_append]
    omega
  unfold encodeModule loadRest
  simp only [pbind_ok (readHeader_encode m.version m.procs.length
    m.constants.length m.symbols.length hminv hmaxv hpc hcc hsc _)]
  simp only [pbind_ok (checkCounts_pos
    ⟨m.version, m.procs.length, m.constants.length, m.symbols.length⟩ _ hlen)]
  simp only [loadBody]
  simp only [pbind_ok (readConstants_encode m.constants _ hconsts)]
  simp only [pbind_ok (readSymbols_encode m.symbols [] _
    (fun s hs => ⟨(hsymres s hs).1, (hsyms s hs).2.1, (hsyms s hs).2.2.2⟩)
    hnd (fun s _ => by simp))]
  simp only [pbind_ok (readProcs_encode_exact m.procs hproc2
    (fun p hp => hprocs p hp))]
  simp only [pbind_ok (pcheck_ok (resolveSymbols_all_ok m.constants.length
    m.procs.length m.symbols (fun s hs => (hsymres s hs).2)) _)]
  simp only [ppure_eq]

end pz

/-- Claim C8: re-encoding an assembled (well-formed) Module into the
binary format and re-loading the bytes succeeds and yields a Module
structurally equal to the original — same symbols, same procedure bytes,
same constants (the encode/load round-trip law). -/
theorem loader_roundtrip (m : pz.Module) (h : pz.moduleWf m) :
    pz.loadModule (pz.encodeModule m) = .ok m :=
  pz.loadModule_ok_of (pz.loadRest_encode m h)

/-- Witness for C8 at a concrete input: the minimal "main" module of the
spec's section 8 scenario survives the encode/load round trip. -/
theorem loader_roundtrip_witness :
    pz.moduleWf pz.mainModule ∧
      pz.loadModule (pz.encodeModule pz.mainModule) = .ok pz.mainModule :=
  ⟨by decide, loader_roundtrip pz.mainModule (by decide)⟩

/-- Claim C1: for every file and verbosity flag, the loader entry point
returns either an assembled Module or a structured error value; every
outcome of a load call is one of these two. -/
theorem pzRead_total (file : Option (List Nat)) (verbose : Bool) :
    (∃ m, pz.read file verbose = .ok m) ∨
      (∃ e, pz.read file verbose = .error e) := by
  cases hres : pz.read file verbose with
  | ok m => exact .inl ⟨m, rfl⟩
  | error e => exact .inr ⟨e, rfl⟩

/-- Claim C7: any input whose first four bytes do not spell the expected
magic constant is rejected with `BadMagic`, whatever the remaining bytes
are — so no field other than the magic number is interpreted before the
failure (the result is the same for every continuation `rest`). -/
theorem loader_bad_magic (b0 b1 b2 b3 : Nat) (rest : List Nat)
    (h : pz.leVal [b0, b1, b2, b3] ≠ pz.pzMagic) :
    pz.loadModule ([b0, b1, b2, b3] ++ rest) = .error .BadMagic := by
  have hh : pz.readHeader ([b0, b1, b2, b3] ++ rest) = .error .BadMagic := by
    simp only [pz.readHeader,
      pz.pbind_ok (pz.readU32_raw [b0, b1, b2, b3] rest rfl)]
    exact pz.pbind_err (pz.pguard_neg h _)
  exact pz.loadModule_err_of (pz.loadRest_err_of_header hh)

/-- Witness for C7 at a concrete input: four zero bytes are not the
magic, and the load of that input fails with `BadMagic`. -/
theorem loader_bad_magic_witness :
    pz.leVal [0, 0, 0, 0] ≠ pz.pzMagic ∧
      pz.loadModule ([0, 0, 0, 0] ++ [1, 2, 3]) = .error .BadMagic :=
  ⟨by decide, loader_bad_magic 0 0 0 0 [1, 2, 3] (by decide)⟩

/-- Claim C10: an input whose header carries the correct magic but a
version one above the supported maximum fails with
`UnsupportedVersion`, for every possible continuation of the buffer —
so the loader does not proceed to read the constant, symbol or code
sections (the result is independent of all bytes after the version). -/
theorem loader_unsupported_version (rest : List Nat) :
    pz.loadModule (pz.leBytes 4 pz.pzMagic ++
      (pz.leBytes 2 (pz.maxVersion + 1) ++ rest)) =
      .error .UnsupportedVersion := by
  have hmg : pz.pzMagic < 4294967296 := by norm_num [pz.pzMagic]
  have hv : pz.maxVersion + 1 < 65536 := by norm_num [pz.maxVersion]
  have hh : pz.readHeader (pz.leBytes 4 pz.pzMagic ++
      (pz.leBytes 2 (pz.maxVersion + 1) ++ rest)) =
      .error .UnsupportedVersion := by
    simp only [pz.readHeader, pz.pbind_ok (pz.readU32_append pz.pzMagic hmg _)]
    simp only [pz.pbind_ok (pz.pguard_pos rfl _)]
    simp only [pz.pbind_ok (pz.readU16_append (pz.maxVersion + 1) hv _)]
    refine pz.pbind_err (pz.pguard_neg ?_ _)
    norm_num [pz.minVersion, pz.maxVersion]
  exact pz.loadModule_err_of (pz.loadRest_err_of_header hh)

namespace pz

theorem pbind_inv {α β : Type} {p : Rd α} {f : α → Rd β} {l r : List Nat}
    {b : β} (h : pbind p f l = .ok (b, r)) :
    ∃ a mid, p l = .ok (a, mid) ∧ f a mid = .ok (b, r) := by
  unfold pbind at h
  cases hp : p l with
  | error e => rw [hp] at h; cases h
  | ok x =>
    obtain ⟨a, mid⟩ := x
    rw [hp] at h
    exact ⟨a, mid, rfl, h⟩

theorem pguard_inv {c : Prop} [Decidable c] {e : ErrorKind} {l r : List Nat}
    {u : Unit} (h : pguard c e l = .ok (u, r)) : c ∧ r = l := by
  unfold pguard at h
  by_cases hc : c
  · rw [if_pos hc] at h
    cases h
    exact ⟨hc, rfl⟩
  · rw [if_neg hc] at h
    cases h

theorem pcheck_inv {x : Except ErrorKind Unit} {l r : List Nat} {u : Unit}
    (h : pcheck x l = .ok (u, r)) : x = .ok () ∧ r = l := by
  unfold pcheck at h
  cases x with
  | ok v => cases v; cases h; exact ⟨rfl, rfl⟩
  | error e => cases h

theorem ppure_inv {α : Type} {a b : α} {l r : List Nat}
    (h : ppure a l = .ok (b, r)) : b = a ∧ r = l := by
  cases h
  exact ⟨rfl, rfl⟩

theorem readN_inv {n : Nat} {l bs r : List Nat} (h : readN n l = .ok (bs, r)) :
    bs.length = n := by
  unfold readN at h
  by_cases hle : n ≤ l.length
  · rw [if_pos hle] at h
    cases h
    simp [List.length_take]
    omega
  · rw [if_neg hle] at h
    cases h

/-- A reader is lawful when every successful run splits its input into a
consumed part and the returned rest, the result does not depend on the
bytes after the consumed part, and every strict prefix of the consumed
part makes it fail with `TruncatedInput`.  This is the cursor discipline
of spec section 4.1: reads never advance past the end and fail with
`TruncatedInput` when bytes run out. -/
def LawfulRd {α : Type} (p : Rd α) : Prop :=
  ∀ l a r, p l = .ok (a, r) →
    ∃ c, l = c ++ r ∧
      (∀ r', p (c ++ r') = .ok (a, r')) ∧
      (∀ k, k < c.length → p (c.take k) = .error .TruncatedInput)

theorem lawful_ppure {α : Type} (a : α) : LawfulRd (ppure a) := by
  intro l b r h
  cases h
  exact ⟨[], rfl, fun r' => rfl, fun k hk => absurd hk (by simp)⟩

theorem lawful_pguard (c : Prop) [Decidable c] (e : ErrorKind) :
    LawfulRd (pguard c e) := by
  intro l b r h
  obtain ⟨hc, hr⟩ := pguard_inv h
  subst hr
  exact ⟨[], rfl, fun r' => pguard_pos hc r', fun k hk => absurd hk (by simp)⟩

theorem lawful_pcheck (x : Except ErrorKind Unit) : LawfulRd (pcheck x) := by
  intro l b r h
  obtain ⟨hx, hr⟩ := pcheck_inv h
  subst hr hx
  exact ⟨[], rfl, fun r' => by cases b; rfl, fun k hk => absurd hk (by simp)⟩

theorem lawful_pfail {α : Type} (e : ErrorKind) : LawfulRd (pfail (α := α) e) := by
  intro l a r h
  cases h

theorem lawful_readU8 : LawfulRd readU8 := by
  intro l a r h
  cases l with
  | nil => cases h
  | cons b t =>
    have hba : b = a ∧ t = r := by
      cases h
      exact ⟨rfl, rfl⟩
    obtain ⟨hb, ht⟩ := hba
    subst hb
    subst ht
    refine ⟨[b], rfl, fun r' => rfl, ?_⟩
    intro k hk
    have hk0 : k = 0 := by simp at hk; omega
    subst hk0
    rfl

theorem lawful_readN (n : Nat) : LawfulRd (readN n) := by
  intro l a r h
  unfold readN at h
  by_cases hle : n ≤ l.length
  · rw [if_pos hle] at h
    cases h
    refine ⟨l.take n, (List.take_append_drop n l).symm, ?_, ?_⟩
    · intro r'
      exact readN_append n (l.take n) r' (by simp [List.length_take]; omega)
    · intro k hk
      refine readN_short n _ ?_
      simp [List.length_take] at hk ⊢
      omega
  · rw [if_neg hle] at h
    cases h

theorem lawful_pbind {α β : Type} {p : Rd α} {f : α → Rd β}
    (hp : LawfulRd p) (hf : ∀ a, LawfulRd (f a)) : LawfulRd (pbind p f) := by
  intro l b r h
  obtain ⟨a, mid, h1, h2⟩ := pbind_inv h
  obtain ⟨c1, hl, hsuf1, htr1⟩ := hp l a mid h1
  obtain ⟨c2, hmid, hsuf2, htr2⟩ := hf a mid b r h2
  refine ⟨c1 ++ c2, ?_, ?_, ?_⟩
  · rw [hl, hmid, List.append_assoc]
  · intro r'
    rw [List.append_assoc]
    calc pbind p f (c1 ++ (c2 ++ r'))
        = f a (c2 ++ r') := pbind_ok (hsuf1 (c2 ++ r'))
      _ = .ok (b, r') := hsuf2 r'
  · intro k hk
    simp only [List.length_append] at hk
    by_cases hk1 : k < c1.length
    · rw [List.take_append_of_le_length (by omega)]
      exact pbind_err (htr1 k hk1)
    · have hsplit : (c1 ++ c2).take k = c1 ++ c2.take (k - c1.length) := by
        rw [List.take_append_eq_append_take]
        rw [List.take_of_length_le (by omega)]
      rw [hsplit]
      rw [pbind_ok (hsuf1 (c2.take (k - c1.length)))]
      exact htr2 (k - c1.length) (by omega)

theorem lawful_readU16 : LawfulRd readU16 :=
  lawful_pbind (lawful_readN 2) (fun bs => lawful_ppure (leVal bs))

theorem lawful_readU32 : LawfulRd readU32 :=
  lawful_pbind (lawful_readN 4) (fun bs => lawful_ppure (leVal bs))

end pz

namespace pz

theorem lawful_readConstant : LawfulRd readConstant := by
  unfold readConstant
  refine lawful_pbind lawful_readU8 (fun tag => ?_)
  by_cases h0 : tag = 0
  · rw [if_pos h0]
    exact lawful_pbind (lawful_readN 8) (fun bs => lawful_ppure _)
  · rw [if_neg h0]
    by_cases h1 : tag = 1
    · rw [if_pos h1]
      exact lawful_pbind (lawful_readN 8) (fun bs => lawful_ppure _)
    · rw [if_neg h1]
      by_cases h2 : tag = 2
      · rw [if_pos h2]
        exact lawful_pbind lawful_readU32 (fun len =>
          lawful_pbind (lawful_readN len) (fun bs => lawful_ppure _))
      · rw [if_neg h2]
        exact lawful_pfail _

theorem lawful_readSymbolEntry : LawfulRd readSymbolEntry := by
  unfold readSymbolEntry
  exact lawful_pbind lawful_readU8 (fun ns =>
    lawful_pbind lawful_readU32 (fun len =>
    lawful_pbind (lawful_readN len) (fun name =>
    lawful_pbind (lawful_pguard _ _) (fun _ =>
    lawful_pbind lawful_readU8 (fun kind =>
    lawful_pbind lawful_readU32 (fun tgt => lawful_ppure _))))))

theorem lawful_readProcEntry : LawfulRd readProcEntry := by
  unfold readProcEntry
  exact lawful_pbind lawful_readU16 (fun arity =>
    lawful_pbind lawful_readU16 (fun slots =>
    lawful_pbind (lawful_pguard _ _) (fun _ =>
    lawful_pbind lawful_readU32 (fun len =>
    lawful_pbind (lawful_pguard _ _) (fun _ =>
    lawful_pbind (lawful_readN len) (fun code => lawful_ppure _))))))

theorem lawful_readConstants (n : Nat) : LawfulRd (readConstants n) := by
  induction n with
  | zero => exact lawful_ppure []
  | succ n ih =>
    exact lawful_pbind lawful_readConstant (fun c =>
      lawful_pbind ih (fun cs => lawful_ppure _))

theorem lawful_readSymbols (n : Nat) :
    ∀ seen, LawfulRd (readSymbols n seen) := by
  induction n with
  | zero =>
    intro seen
    exact lawful_ppure []
  | succ n ih =>
    intro seen
    exact lawful_pbind lawful_readSymbolEntry (fun s =>
      lawful_pbind (lawful_pguard _ _) (fun _ =>
      lawful_pbind (ih (symKey s :: seen)) (fun ss => lawful_ppure _)))

theorem lawful_readProcs (n : Nat) : LawfulRd (readProcs n) := by
  induction n with
  | zero => exact lawful_ppure []
  | succ n ih =>
    exact lawful_pbind lawful_readProcEntry (fun p =>
      lawful_pbind ih (fun ps => lawful_ppure _))

theorem lawful_readHeader : LawfulRd readHeader := by
  unfold readHeader
  exact lawful_pbind lawful_readU32 (fun magic =>
    lawful_pbind (lawful_pguard _ _) (fun _ =>
    lawful_pbind lawful_readU16 (fun version =>
    lawful_pbind (lawful_pguard _ _) (fun _ =>
    lawful_pbind lawful_readU32 (fun pc =>
    lawful_pbind lawful_readU32 (fun cc =>
    lawful_pbind lawful_readU32 (fun sc => lawful_ppure _)))))))

theorem lawful_loadBody (hd : Header) : LawfulRd (loadBody hd) := by
  unfold loadBody
  exact lawful_pbind (lawful_readConstants hd.constCount) (fun consts =>
    lawful_pbind (lawful_readSymbols hd.symCount []) (fun syms =>
    lawful_pbind (lawful_readProcs hd.procCount) (fun procs =>
    lawful_pbind (lawful_pcheck _) (fun _ => lawful_ppure _))))

theorem checkCounts_inv {hd : Header} {l r : List Nat} {u : Unit}
    (h : checkCounts hd l = .ok (u, r)) : r = l := by
  unfold checkCounts at h
  by_cases hle : hd.procCount + hd.constCount + hd.symCount ≤ l.length
  · rw [if_pos hle] at h
    cases h
    rfl
  · rw [if_neg hle] at h
    cases h

theorem checkCounts_cases (hd : Header) (l : List Nat) :
    checkCounts hd l = .ok ((), l) ∨
      checkCounts hd l = .error .MalformedHeader := by
  unfold checkCounts
  by_cases hle : hd.procCount + hd.constCount + hd.symCount ≤ l.length
  · left
    rw [if_pos hle]
  · right
    rw [if_neg hle]

theorem loadRest_truncation_core {buf : List Nat} {m : Module}
    {rest : List Nat} (h : loadRest buf = .ok (m, rest)) :
    ∀ k, k < buf.length - rest.length →
      ∃ e, loadRest (buf.take k) = .error e ∧
        (e = ErrorKind.TruncatedInput ∨ e = ErrorKind.MalformedHeader) := by
  unfold loadRest at h ⊢
  obtain ⟨hd, l1, hh, hbody⟩ := pbind_inv h
  obtain ⟨u, l2, hcc, hload⟩ := pbind_inv hbody
  have hl2 : l2 = l1 := checkCounts_inv hcc
  rw [hl2] at hload
  obtain ⟨c0, hbuf, hsuf0, htr0⟩ := lawful_readHeader buf hd l1 hh
  obtain ⟨c1, hl1, hsuf1, htr1⟩ := lawful_loadBody hd l1 m rest hload
  intro k hk
  have hbuf' : buf = c0 ++ (c1 ++ rest) := by rw [hbuf, hl1]
  have hlenbuf : buf.length = c0.length + (c1.length + rest.length) := by
    rw [hbuf']
    simp [List.length_append]
  by_cases hk0 : k < c0.length
  · have htake : buf.take k = c0.take k := by
      rw [hbuf', List.take_append_of_le_length (by omega)]
    rw [htake]
    exact ⟨.TruncatedInput, pbind_err (htr0 k hk0), .inl rfl⟩
  · have hk' : k - c0.length < c1.length := by omega
    have htake : buf.take k = c0 ++ c1.take (k - c0.length) := by
      rw [hbuf', List.take_append_eq_append_take,
        List.take_of_length_le (by omega)]
      congr 1
      rw [List.take_append_of_le_length (by omega)]
    rw [htake]
    rw [pbind_ok (hsuf0 (c1.take (k - c0.length)))]
    rcases checkCounts_cases hd (c1.take (k - c0.length)) with hok | herr
    · refine ⟨.TruncatedInput, ?_, .inl rfl⟩
      calc pbind (checkCounts hd) (fun _ => loadBody hd)
            (c1.take (k - c0.length))
          = loadBody hd (c1.take (k - c0.length)) := pbind_ok hok
        _ = .error .TruncatedInput := htr1 _ hk'
    · exact ⟨.MalformedHeader, pbind_err herr, .inr rfl⟩

end pz

/-- Claim C6: for any input that loads successfully, truncating the
buffer at any byte offset before its declared end (the end of the loaded
image) makes loading fail with `TruncatedInput` or with the earlier,
header-stage error `MalformedHeader` (the count sanity ceiling of spec
section 4.2); no partial Module is ever returned and, the model being a
total function, the loader cannot panic or abort. -/
theorem loader_truncation (buf : List Nat) (m : pz.Module) (rest : List Nat)
    (hok : pz.loadRest buf = .ok (m, rest)) (k : Nat)
    (hk : k < buf.length - rest.length) :
    ∃ e, pz.loadModule (buf.take k) = .error e ∧
      (e = pz.ErrorKind.TruncatedInput ∨ e = pz.ErrorKind.MalformedHeader) := by
  obtain ⟨e, he, hor⟩ := pz.loadRest_truncation_core hok k hk
  exact ⟨e, pz.loadModule_err_of he, hor⟩

/-- Witness for C6 at a concrete input: the minimal "main" image loads
in full, and its truncation after five bytes is rejected. -/
theorem loader_truncation_witness :
    pz.loadRest pz.mainBytes = .ok (pz.mainModule, []) ∧
      ∃ e, pz.loadModule (pz.mainBytes.take 5) = .error e ∧
        (e = pz.ErrorKind.TruncatedInput ∨ e = pz.ErrorKind.MalformedHeader) :=
  ⟨by decide,
   loader_truncation pz.mainBytes pz.mainModule [] (by decide) 5 (by decide)⟩

namespace pz

theorem readHeader_post {l r : List Nat} {hd : Header}
    (h : readHeader l = .ok (hd, r)) :
    minVersion ≤ hd.version ∧ hd.version ≤ maxVersion := by
  unfold readHeader at h
  obtain ⟨magic, l1, h1, h⟩ := pbind_inv h
  obtain ⟨u1, l2, h2, h⟩ := pbind_inv h
  obtain ⟨version, l3, h3, h⟩ := pbind_inv h
  obtain ⟨u2, l4, h4, h⟩ := pbind_inv h
  obtain ⟨hver, hl4⟩ := pguard_inv h4
  obtain ⟨pc, l5, h5, h⟩ := pbind_inv h
  obtain ⟨cc, l6, h6, h⟩ := pbind_inv h
  obtain ⟨sc, l7, h7, h⟩ := pbind_inv h
  obtain ⟨hhd, hr⟩ := ppure_inv h
  subst hhd
  exact hver

theorem readSymbolEntry_utf8 {l r : List Nat} {s : Symbol}
    (h : readSymbolEntry l = .ok (s, r)) : validUtf8 s.name = true := by
  unfold readSymbolEntry at h
  obtain ⟨ns, l1, h1, h⟩ := pbind_inv h
  obtain ⟨len, l2, h2, h⟩ := pbind_inv h
  obtain ⟨name, l3, h3, h⟩ := pbind_inv h
  obtain ⟨u, l4, h4, h⟩ := pbind_inv h
  obtain ⟨hutf, hl4⟩ := pguard_inv h4
  obtain ⟨kind, l5, h5, h⟩ := pbind_inv h
  obtain ⟨tgt, l6, h6, h⟩ := pbind_inv h
  obtain ⟨hs, hr⟩ := ppure_inv h
  subst hs
  exact hutf

theorem readSymbols_post (n : Nat) :
    ∀ (seen : List (Nat × List Nat)) (l r : List Nat) (ss : List Symbol),
      readSymbols n seen l = .ok (ss, r) →
      (∀ s ∈ ss, validUtf8 s.name = true) ∧
        (∀ s ∈ ss, ¬ symKey s ∈ seen) ∧
        (ss.map symKey).Nodup := by
  induction n with
  | zero =>
    intro seen l r ss h
    obtain ⟨hss, hr⟩ := ppure_inv h
    subst hss
    simp
  | succ n ih =>
    intro seen l r ss h
    unfold readSymbols at h
    obtain ⟨s, l1, h1, h⟩ := pbind_inv h
    obtain ⟨u, l2, h2, h⟩ := pbind_inv h
    obtain ⟨hnotin, hl2⟩ := pguard_inv h2
    obtain ⟨ss', l3, h3, h⟩ := pbind_inv h
    obtain ⟨hss, hr⟩ := ppure_inv h
    subst hss
    obtain ⟨ih1, ih2, ih3⟩ := ih (symKey s :: seen) l2 l3 ss' h3
    refine ⟨?_, ?_, ?_⟩
    · intro x hx
      rcases List.mem_cons.mp hx with hx1 | hx2
      · subst hx1
        exact readSymbolEntry_utf8 h1
      · exact ih1 x hx2
    · intro x hx
      rcases List.mem_cons.mp hx with hx1 | hx2
      · subst hx1
        exact hnotin
      · intro hin
        exact ih2 x hx2 (List.mem_cons_of_mem _ hin)
    · rw [List.map_cons, List.nodup_cons]
      refine ⟨?_, ih3⟩
      intro hin
      obtain ⟨x, hx, hkey⟩ := List.mem_map.mp hin
      exact ih2 x hx (hkey ▸ List.mem_cons_self _ _)
    
theorem readProcEntry_post {l r : List Nat} {p : Procedure}
    (h : readProcEntry l = .ok (p, r)) :
    p.arity ≤ p.localSlots ∧ p.code ≠ [] := by
  unfold readProcEntry at h
  obtain ⟨arity, l1, h1, h⟩ := pbind_inv h
  obtain ⟨slots, l2, h2, h⟩ := pbind_inv h
  obtain ⟨u1, l3, h3, h⟩ := pbind_inv h
  obtain ⟨har, hl3⟩ := pguard_inv h3
  obtain ⟨len, l4, h4, h⟩ := pbind_inv h
  obtain ⟨u2, l5, h5, h⟩ := pbind_inv h
  obtain ⟨hlen, hl5⟩ := pguard_inv h5
  obtain ⟨code, l6, h6, h⟩ := pbind_inv h
  have hcode : code.length = len := readN_inv h6
  obtain ⟨hp, hr⟩ := ppure_inv h
  subst hp
  refine ⟨har, ?_⟩
  intro hnil
  have hnil' : code = [] := hnil
  rw [hnil'] at hcode
  simp at hcode
  omega

theorem readProcs_post (n : Nat) :
    ∀ (l r : List Nat) (ps : List Procedure),
      readProcs n l = .ok (ps, r) →
      ∀ p ∈ ps, p.arity ≤ p.localSlots ∧ p.code ≠ [] := by
  induction n with
  | zero =>
    intro l r ps h
    obtain ⟨hps, hr⟩ := ppure_inv h
    subst hps
    intro p hp
    cases hp
  | succ n ih =>
    intro l r ps h
    unfold readProcs at h
    obtain ⟨p, l1, h1, h⟩ := pbind_inv h
    obtain ⟨ps', l2, h2, h⟩ := pbind_inv h
    obtain ⟨hps, hr⟩ := ppure_inv h
    subst hps
    intro x hx
    rcases List.mem_cons.mp hx with hx1 | hx2
    · subst hx1
      exact readProcEntry_post h1
    · exact ih l1 l2 ps' h2 x hx2

theorem loadRest_complete {l r : List Nat} {m : Module}
    (h : loadRest l = .ok (m, r)) : moduleComplete m := by
  unfold loadRest at h
  obtain ⟨hd, l1, hh, hbody⟩ := pbind_inv h
  obtain ⟨u, l2, hcc, hload⟩ := pbind_inv hbody
  unfold loadBody at hload
  obtain ⟨consts, l3, hcs, hload⟩ := pbind_inv hload
  obtain ⟨syms, l4, hsy, hload⟩ := pbind_inv hload
  obtain ⟨procs, l5, hps, hload⟩ := pbind_inv hload
  obtain ⟨u2, l6, hres, hload⟩ := pbind_inv hload
  obtain ⟨hresolve, hl6⟩ := pcheck_inv hres
  obtain ⟨hm, hr⟩ := ppure_inv hload
  subst hm
  obtain ⟨hver1, hver2⟩ := readHeader_post hh
  obtain ⟨hutf, _hseen, hnd⟩ := readSymbols_post hd.symCount [] l3 l4 syms hsy
  refine ⟨hver1, hver2, hnd, ?_, readProcs_post hd.procCount l4 l5 procs hps⟩
  intro s hs
  exact ⟨hutf s hs,
    resolveSymbols_mem_ok consts.length procs.length syms hresolve s hs⟩

theorem loadModule_inv {l : List Nat} {m : Module}
    (h : loadModule l = .ok m) : ∃ r, loadRest l = .ok (m, r) := by
  unfold loadModule at h
  cases hres : loadRest l with
  | error e => rw [hres] at h; cases h
  | ok x =>
    obtain ⟨m', r⟩ := x
    rw [hres] at h
    have hm : m' = m := by cases h; rfl
    subst hm
    exact ⟨r, rfl⟩

end pz

/-- Claim C2: the load is atomic — for every input buffer, the caller
receives either a complete, internally consistent Module (all
whole-module invariants of `moduleComplete` hold of it) or no Module at
all (an error, under which no ok-result exists); no partially built
module is ever exposed. -/
theorem loader_atomicity (buf : List Nat) :
    (∀ m, pz.loadModule buf = .ok m → pz.moduleComplete m) ∧
      (∀ e, pz.loadModule buf = .error e → ∀ m, pz.loadModule buf ≠ .ok m) := by
  constructor
  · intro m h
    obtain ⟨r, hrest⟩ := pz.loadModule_inv h
    exact pz.loadRest_complete hrest
  · intro e he m hm
    rw [he] at hm
    cases hm

/-- Witness for C2 at a concrete input: the minimal "main" image loads
to a module that satisfies all the whole-module invariants. -/
theorem loader_atomicity_witness :
    pz.loadModule pz.mainBytes = .ok pz.mainModule ∧
      pz.moduleComplete pz.mainModule :=
  ⟨by decide,
   (loader_atomicity pz.mainBytes).1 pz.mainModule (by decide)⟩

namespace pz

theorem readSymbols_dup (pre : List Symbol) :
    ∀ (s : Symbol) (seen : List (Nat × List Nat)) (n : Nat) (tail : List Nat),
      (∀ x ∈ pre, validUtf8 x.name = true ∧ x.name.length < 4294967296 ∧
        x.target < 4294967296) →
      validUtf8 s.name = true → s.name.length < 4294967296 →
      s.target < 4294967296 →
      (∀ x ∈ pre, ¬ symKey x ∈ seen) →
      (pre.map symKey).Nodup →
      (symKey s ∈ pre.map symKey ∨ symKey s ∈ seen) →
      pre.length < n →
      readSymbols n seen (encodeSymbols (pre ++ [s]) ++ tail) =
        .error .DuplicateSymbol := by
  induction pre with
  | nil =>
    intro s seen n tail _ hutf hlen htgt _ _ hdup hn
    obtain ⟨n', rfl⟩ : ∃ n', n = n' + 1 := ⟨n - 1, by omega⟩
    have hin : symKey s ∈ seen := by
      rcases hdup with h | h
      · simp at h
      · exact h
    simp only [List.nil_append, encodeSymbols, List.append_nil]
    simp only [readSymbols,
      pbind_ok (readSymbolEntry_encode s hutf hlen htgt _)]
    exact pbind_err (pguard_neg (not_not_intro hin) _)
  | cons x pre ih =>
    intro s seen n tail hwf hutf hlen htgt hseen hnd hdup hn
    obtain ⟨n', rfl⟩ : ∃ n', n = n' + 1 := ⟨n - 1, by omega⟩
    obtain ⟨hxu, hxl, hxt⟩ := hwf x (by simp)
    have hnd2 : (symKey x :: pre.map symKey).Nodup := by simpa using hnd
    have hxnotin : ¬ symKey x ∈ pre.map symKey := (List.nodup_cons.mp hnd2).1
    have hnd' : (pre.map symKey).Nodup := (List.nodup_cons.mp hnd2).2
    have hseen' : ∀ y ∈ pre, ¬ symKey y ∈ (symKey x :: seen) := by
      intro y hy
      simp only [List.mem_cons]
      push_neg
      refine ⟨?_, hseen y (by simp [hy])⟩
      intro heq
      exact hxnotin (heq ▸ List.mem_map_of_mem symKey hy)
    have hdup' : symKey s ∈ pre.map symKey ∨ symKey s ∈ (symKey x :: seen) := by
      rcases hdup with h | h
      · rw [List.map_cons] at h
        rcases List.mem_cons.mp h with h1 | h2
        · right
          exact h1 ▸ List.mem_cons_self _ _
        · left
          exact h2
      · right
        exact List.mem_cons_of_mem _ h
    simp only [List.cons_append, encodeSymbols, List.append_assoc]
    simp only [readSymbols,
      pbind_ok (readSymbolEntry_encode x hxu hxl hxt _)]
    simp only [pbind_ok (pguard_pos (hseen x (by simp)) _)]
    exact pbind_err (ih s (symKey x :: seen) n' tail
      (fun y hy => hwf y (by simp [hy])) hutf hlen htgt hseen' hnd' hdup'
      (by simp at hn ⊢; omega))

end pz

/-- Claim C9: duplicate symbols are rejected and absent from loaded
modules.  First part: any otherwise well-formed image whose symbol table
repeats a (namespace, name) pair — a duplicate entry `s` after a clean
prefix `pre`, whatever bytes follow — fails to load with
`DuplicateSymbol`.  Second part: consequently, in every successfully
loaded Module no two symbols share a (namespace, name) key. -/
theorem loader_duplicate_symbol :
    (∀ (buf : List Nat) (m : pz.Module), pz.loadModule buf = .ok m →
      (m.symbols.map pz.symKey).Nodup) ∧
    (∀ (version pc sc : Nat) (consts : List pz.Constant)
        (pre : List pz.Symbol) (s : pz.Symbol) (tail : List Nat),
      pz.minVersion ≤ version → version ≤ pz.maxVersion →
      pc < 4294967296 → sc < 4294967296 → consts.length < 4294967296 →
      (∀ c ∈ consts, pz.constWf c) →
      (∀ x ∈ pre, pz.validUtf8 x.name = true ∧
        x.name.length < 4294967296 ∧ x.target < 4294967296) →
      pz.validUtf8 s.name = true → s.name.length < 4294967296 →
      s.target < 4294967296 →
      (pre.map pz.symKey).Nodup →
      pz.symKey s ∈ pre.map pz.symKey →
      pre.length < sc →
      pc + consts.length + sc ≤
        (pz.encodeConstants consts ++
          (pz.encodeSymbols (pre ++ [s]) ++ tail)).length →
      pz.loadModule (pz.encodeHeader version pc consts.length sc ++
        (pz.encodeConstants consts ++
          (pz.encodeSymbols (pre ++ [s]) ++ tail))) =
        .error .DuplicateSymbol) := by
  constructor
  · intro buf m h
    obtain ⟨r, hrest⟩ := pz.loadModule_inv h
    exact (pz.loadRest_complete hrest).2.2.1
  · intro version pc sc consts pre s tail hv1 hv2 hpc hsc hcc hconsts hpre
      hsu hsl hst hnd hdup hlen hsan
    refine pz.loadModule_err_of ?_
    unfold pz.loadRest
    simp only [pz.pbind_ok (pz.readHeader_encode version pc consts.length sc
      hv1 hv2 hpc hcc hsc _)]
    simp only [pz.pbind_ok (pz.checkCounts_pos
      ⟨version, pc, consts.length, sc⟩ _ hsan)]
    simp only [pz.loadBody]
    simp only [pz.pbind_ok (pz.readConstants_encode consts _ hconsts)]
    exact pz.pbind_err (pz.readSymbols_dup pre s [] sc tail hpre hsu hsl hst
      (fun x _ => by simp) hnd (.inl hdup) hlen)

/-- Witness for C9 at concrete inputs: the loaded "main" module has no
duplicate keys, and a two-symbol image repeating the name "m" in the
procedure namespace is rejected with `DuplicateSymbol`. -/
theorem loader_duplicate_symbol_witness :
    (pz.mainModule.symbols.map pz.symKey).Nodup ∧
      pz.loadModule (pz.encodeHeader 1 0 0 2 ++
        (pz.encodeConstants [] ++
          (pz.encodeSymbols ([⟨0, [109], 0, 0⟩] ++ [⟨0, [109], 0, 0⟩]) ++ [])))
        = .error .DuplicateSymbol :=
  ⟨loader_duplicate_symbol.1 pz.mainBytes pz.mainModule (by decide),
   loader_duplicate_symbol.2 1 0 2 [] [⟨0, [109], 0, 0⟩] ⟨0, [109], 0, 0⟩ []
     (by decide) (by decide) (by decide) (by decide) (by decide)
     (fun c hc => absurd hc (by simp)) (by decide) (by decide) (by decide)
     (by decide) (by decide) (by decide) (by decide) (by decide)⟩
